import Mathlib

/-!
Verification development for the VTIL-Core optimization slice:
 - `vtil::symbolic::aux::split_offset` (VTIL-SymEx/expressions/auxiliaries.cpp)
 - the pass execution engine and pass combinators
   (VTIL-Compiler/common/interface.hpp)

Shallow embedding conventions:
 - expressions are an inductive tree; constants carry their signed value
   (the source reads the bound constant through `get<true>()`, i.e. as a
   signed 64-bit integer; bit-width bookkeeping is irrelevant to the
   properties below and is elided),
 - basic blocks are identified by their entry `vip` modelled as `Nat`,
 - the routine graph is a block list plus `next`/`prev` link functions,
 - fatal assertion failures (`fassert`/`unreachable`) are modelled as
   `Option.none` results,
 - the unbounded recursion/loops of the source are modelled with explicit
   fuel; termination claims become "the stated fuel suffices".
-/

namespace vtil

/-- Operators appearing in expression nodes.  Only `add` and `sub` matter to
`split_offset`; all remaining operators of the source are collapsed into
`other`, and `neg` stands for the unary operators. -/
inductive op_id where
  | add
  | sub
  | neg
  | other (n : Nat)
deriving DecidableEq

/-- Modelled from the spec: addition is commutative for directive matching,
subtraction is not ("subtraction is not, so `A-U` binds left-to-right only").
The remaining operators are conservatively treated as non-commutative; no
claim depends on them. -/
def op_commutative : op_id → Bool
  | .add => true
  | _ => false

/-- Expression node: tagged union over constant, symbolic leaf, unary
operator and binary operator, mirroring `vtil::symbolic::expression`. -/
inductive expression where
  | cst (val : Int)
  | sym (id : Nat)
  | una (op : op_id) (e : expression)
  | bin (op : op_id) (lhs rhs : expression)
deriving DecidableEq

/-- True exactly on constant nodes (`expression::is_constant`). -/
def is_constant : expression → Bool
  | .cst _ => true
  | _ => false

/-- Signed value of a constant node; `none` on non-constants.  Mirrors
`expression::get<true>()` returning an optional signed integer. -/
def get_signed : expression → Option Int
  | .cst v => some v
  | _ => none

/-- Modelled from the spec: directive patterns (`vtil::symbolic::directive`,
whose implementation is outside the provided sources).  Leaves are either a
plain wildcard (`A`-style, matches any sub-tree) or a constant-filtered
wildcard (`U`-style, "only binds to constants"); interior nodes carry an
operator, matching only the same operator. -/
inductive directive where
  | var (id : Nat)
  | var_const (id : Nat)
  | dun (op : op_id) (d : directive)
  | dbin (op : op_id) (l r : directive)
deriving DecidableEq

/-- Symbol table: wildcard identifier to bound sub-expression. -/
abbrev symbol_table := List (Nat × expression)

/-- Bind a wildcard, enforcing binding consistency: a wildcard already bound
must re-bind to a structurally equal sub-expression, else the whole match
attempt fails. -/
def st_bind (v : Nat) (e : expression) (st : symbol_table) : Option symbol_table :=
  match List.lookup v st with
  | some e0 => if e0 = e then some st else none
  | none => some ((v, e) :: st)

/-- Modelled from the spec: `fast_match` (VTIL-SymEx/directives/fast_matcher,
outside the provided sources).  Structural unification of an expression
against a directive per spec section 4.1: a plain wildcard binds any
sub-tree, a filtered wildcard binds only constants, an operator node matches
only the same operator, and for a commutative operator the two operands are
also tried swapped.  Matching is pure and produces a symbol table. -/
def fast_match : directive → expression → symbol_table → Option symbol_table
  | .var v, e, st => st_bind v e st
  | .var_const v, e, st => if is_constant e then st_bind v e st else none
  | .dun op d, .una op2 e, st =>
      if op = op2 then fast_match d e st else none
  | .dun _ _, .cst _, _ => none
  | .dun _ _, .sym _, _ => none
  | .dun _ _, .bin _ _ _, _ => none
  | .dbin op dl dr, .bin op2 el er, st =>
      if op = op2 then
        match (match fast_match dl el st with
               | some st1 => fast_match dr er st1
               | none => none) with
        | some st2 => some st2
        | none =>
          if op_commutative op then
            match fast_match dl er st with
            | some st1 => fast_match dr el st1
            | none => none
          else none
      else none
  | .dbin _ _ _, .cst _, _ => none
  | .dbin _ _ _, .sym _, _ => none
  | .dbin _ _ _, .una _ _, _ => none

/-- The wildcard `A` of the directive library (matches any sub-tree). -/
def A : directive := .var 0

/-- The wildcard `U` of the directive library (matches only constants). -/
def U : directive := .var_const 1

/-- The static directive list of `split_offset`: `{ A + U, +1 }` then
`{ A - U, -1 }`, in that order. -/
def split_offset_directives : List (directive × Int) :=
  [(.dbin .add A U, 1), (.dbin .sub A U, -1)]

/-- The directive loop of `split_offset`: try each `(directive, sign)` pair
in list order against the expression, returning the symbol table and sign of
the first directive that matches, `none` if no directive matches. -/
def run_directives (ds : List (directive × Int)) (e : expression) :
    Option (symbol_table × Int) :=
  match ds with
  | [] => none
  | (d, sign) :: rest =>
    match fast_match d e [] with
    | some st => some (st, sign)
    | none => run_directives rest e

/-- The rewriter `vtil::symbolic::aux::split_offset`: splits the arithmetic offset off an
expression.  On a match, the base is the binding of `A` and the offset is
the signed value of the binding of `U` multiplied by the matched directive's
sign; with no match the expression is returned unchanged with offset 0.
(The `getD` defaults are unreachable on a successful match, where `A` and
`U` are always bound and `U` is bound to a constant.) -/
def split_offset (e : expression) : expression × Int :=
  match run_directives split_offset_directives e with
  | some (st, sign) =>
      ((List.lookup 0 st).getD e, (((List.lookup 1 st).bind get_signed).getD 0) * sign)
  | none => (e, 0)

/-- Shape test used to state the fallback clause of `split_offset`: an
expression can match one of the two offset directives exactly when it is an
addition with a constant on either side (addition is commutative) or a
subtraction with a constant on the right. -/
def matches_shape : expression → Bool
  | .bin .add el er => is_constant el || is_constant er
  | .bin .sub _ er => is_constant er
  | _ => false


/-! ## Routine graph and the pass execution engine -/

/-- Routine graph: blocks identified by their entry `vip` (a `Nat`),
forward links `next`, backward links `prev`, and the designated entry
block.  Mirrors `vtil::routine` as consumed by `apply_pass`. -/
structure routine where
  blocks : List Nat
  next : Nat → List Nat
  prev : Nat → List Nat
  entry_point : Nat

/-- Well-formedness of a routine graph: the entry block belongs to the
routine and every link of a block of the routine stays inside the routine. -/
def routine_wf (R : routine) : Prop :=
  R.entry_point ∈ R.blocks ∧
  (∀ b ∈ R.blocks, ∀ c ∈ R.next b, c ∈ R.blocks) ∧
  (∀ b ∈ R.blocks, ∀ c ∈ R.prev b, c ∈ R.blocks)

/-- Modelled from the spec: `routine::get_exits` (outside the provided
sources) enumerates the exit blocks, i.e. the blocks with no successors. -/
def get_exits (R : routine) : List Nat :=
  R.blocks.filter (fun b => (R.next b).isEmpty)

/-- Iteration of the `rec` helper of `apply_pass` over a list of link
targets, parametric in the single-block visitor `F`.  State is the visited
set (first component) and the worker invocation order gathered so far
(second component); `none` propagates visitor failure (fuel exhaustion). -/
def rec_links (F : Nat → List Nat → Option (List Nat × List Nat)) :
    List Nat → List Nat → Option (List Nat × List Nat)
  | [], vis => some (vis, [])
  | c :: cs, vis =>
    match F c vis with
    | none => none
    | some (v1, o1) =>
      match rec_links F cs v1 with
      | none => none
      | some (v2, o2) => some (v2, o1 ++ o2)

/-- One unfolding of the `rec` lambda of `apply_pass`: if the block is
already in the visited set return immediately, otherwise insert it, recurse
into its links (successors when walking forward, predecessors when walking
backward) and only then run the worker on the block. -/
def rec_step (links : Nat → List Nat)
    (F : Nat → List Nat → Option (List Nat × List Nat)) :
    Nat → List Nat → Option (List Nat × List Nat) :=
  fun blk vis =>
    if blk ∈ vis then some (vis, [])
    else
      match rec_links F (links blk) (blk :: vis) with
      | none => none
      | some (v, ord) => some (v, ord ++ [blk])

/-- The `rec` lambda of `apply_pass` with explicit fuel bounding the
recursion depth; the source recursion has no fuel, and the sufficiency of
`blocks.length + 1` is proved below (`rec_visit_total`). -/
def rec_visit (links : Nat → List Nat) : Nat → Nat → List Nat → Option (List Nat × List Nat)
  | 0 => fun _ _ => none
  | f + 1 => rec_step links (rec_visit links f)

/-- The `serial_df` branch of `apply_pass`: start from the entry point and
iterate forward.  Returns the final visited set and the worker order. -/
def serial_df_run (R : routine) : Option (List Nat × List Nat) :=
  rec_visit R.next (R.blocks.length + 1) R.entry_point []

/-- The `serial_bf` branch of `apply_pass`: start from each exit and iterate
backward, sharing one visited set across the starts. -/
def serial_bf_run (R : routine) : Option (List Nat × List Nat) :=
  rec_links (rec_visit R.prev (R.blocks.length + 1)) (get_exits R) []

/-- The pass execution orders of `vtil::optimizer::execution_order`. -/
inductive execution_order where
  | custom
  | serial
  | serial_bf
  | serial_df
  | parallel
  | parallel_bf
  | parallel_df
deriving DecidableEq

/-- The engine dispatcher `vtil::optimizer::apply_pass`, modelled at the
level of applied-count accumulation: `passFn b xblock` is the count reported
by `opt->pass` on block `b`.  The worker always passes `xblock = true`.
`none` models a fatal failure: the `fassert` of the `custom` branch, or a
serial traversal running out of fuel (which `rec_visit_total` rules out for
well-formed routines).  The three parallel branches dispatch the same worker
over every block of the routine — the leveled segmentation of
`parallel_bf`/`parallel_df` (an external collaborator of this slice) only
schedules the same per-block invocations, so the accumulated count is the
sum over all blocks in each of the three. -/
def apply_pass (R : routine) (ord : execution_order) (passFn : Nat → Bool → Nat) :
    Option Nat :=
  match ord with
  | .custom => none
  | .serial => some ((R.blocks.map (fun b => passFn b true)).sum)
  | .serial_df => (serial_df_run R).map (fun p => (p.2.map (fun b => passFn b true)).sum)
  | .serial_bf => (serial_bf_run R).map (fun p => (p.2.map (fun b => passFn b true)).sum)
  | .parallel => some ((R.blocks.map (fun b => passFn b true)).sum)
  | .parallel_bf => some ((R.blocks.map (fun b => passFn b true)).sum)
  | .parallel_df => some ((R.blocks.map (fun b => passFn b true)).sum)

/-! ## Pass combinators -/

/-- Model of `combine_pass::pass`: run every sub-pass in order on the (threaded)
block state, summing the reported counts.  A sub-pass is modelled as a state
transformer `σ → Bool → σ × Nat` returning the new state and its count. -/
def combine_pass_fn {σ : Type} (ps : List (σ → Bool → σ × Nat))
    (blk : σ) (xblock : Bool) : σ × Nat :=
  ps.foldl (fun acc p => let r := p acc.1 xblock; (r.1, acc.2 + r.2)) (blk, 0)

/-- Model of `conditional_pass<T1, Tx...>::pass`: with cross-block exploration
disallowed, run the first sub-pass and, only if it reported a non-zero
count, the combined remaining sub-passes; with cross-block exploration
allowed, run only the first sub-pass. -/
def conditional_pass_fn {σ : Type} (T1 rest : σ → Bool → σ × Nat)
    (blk : σ) (xblock : Bool) : σ × Nat :=
  if xblock then T1 blk true
  else
    let r := T1 blk false
    if r.2 = 0 then r
    else
      let r2 := rest r.1 false
      (r2.1, r.2 + r2.2)

/-- Model of `exhaust_pass::pass` and `exhaust_pass::xpass`: loop the combined
sub-passes until a round reports 0, summing the counts, with explicit fuel
bounding the number of rounds (the source loop has no fuel; `none` means
the fuel was not enough).  `P` is the combined sub-pass with the state type
`σ` (a block, or a whole routine for `xpass`) and any cross-block flag
already fixed. -/
def exhaust_fuel {σ : Type} (P : σ → σ × Nat) : Nat → σ → Option (σ × Nat)
  | 0, _ => none
  | f + 1, s =>
    let r := P s
    if r.2 = 0 then some (r.1, 0)
    else
      match exhaust_fuel P f r.1 with
      | none => none
      | some (s2, c) => some (s2, r.2 + c)

/-- State of the exhaust loop after `k` full rounds of the sub-pass `P`. -/
def pass_iter {σ : Type} (P : σ → σ × Nat) : Nat → σ → σ
  | 0, s => s
  | k + 1, s => pass_iter P k (P s).1

/-- Count reported by round `k` (0-indexed) of the exhaust loop. -/
def round_count {σ : Type} (P : σ → σ × Nat) (s : σ) (k : Nat) : Nat :=
  (P (pass_iter P k s)).2

/-- Termination of the exhaust loop: the loop eventually stops, i.e. some
fuel makes `exhaust_fuel` return a value. -/
def exhaust_halts {σ : Type} (P : σ → σ × Nat) (s : σ) : Prop :=
  ∃ f, (exhaust_fuel P f s).isSome

/-- Model of `nop_pass::pass`: does nothing and reports 0. -/
def nop_pass_fn {σ : Type} (blk : σ) (_xblock : Bool) : σ × Nat := (blk, 0)

/-- Model of `nop_pass::xpass`: does nothing to the routine and reports 0. -/
def nop_xpass (R : routine) : routine × Nat := (R, 0)

/-- The 3-block chain routine A -> B -> C of the spec's example, with
A = 0, B = 1, C = 2. -/
def chain_routine : routine where
  blocks := [0, 1, 2]
  next := fun b => if b = 0 then [1] else if b = 1 then [2] else []
  prev := fun b => if b = 1 then [0] else if b = 2 then [1] else []
  entry_point := 0


/-- Probe sub-pass for the C4 counterexample: reports 1 without touching the
block state. -/
def cond_probe_first : Nat → Bool → Nat × Nat := fun b _ => (b, 1)

/-- Probe remainder for the C4 counterexample: observably bumps the state
and reports 5. -/
def cond_probe_rest : Nat → Bool → Nat × Nat := fun b _ => (b + 1, 5)

/-- Witness sub-pass reporting 1 and bumping the state. -/
def cond_w_first : Nat → Bool → Nat × Nat := fun b _ => (b + 1, 1)

/-- Witness remainder multiplying the state by 10 and reporting 5. -/
def cond_w_rest : Nat → Bool → Nat × Nat := fun b _ => (b * 10, 5)

/-- Sub-pass that always reports 1: the exhaust loop never stops on it. -/
def always_one_pass : Nat → Nat × Nat := fun b => (b, 1)

/-- Witness sub-pass for C6: counts up to 2, then reaches a fixpoint. -/
def exhaust_probe : Nat → Nat × Nat := fun n => if n < 2 then (n + 1, 1) else (n, 0)

/-! ## Correctness of the serial traversals -/

/-- Reachability along a link function: `reach links a b` holds when `b` can
be reached from `a` by repeatedly following `links`. -/
inductive reach (links : Nat → List Nat) : Nat → Nat → Prop where
  | refl (a : Nat) : reach links a a
  | head {a b c : Nat} : b ∈ links a → reach links b c → reach links a c

/-- Invariant established by one `rec` call (`rec_visit`): the final visited
set is the initial one plus exactly the emitted worker order, it stays
duplicate-free and inside the routine, the argument block ends up visited,
visiting is monotone, every newly visited block has all its links visited,
and every newly visited block is reachable from the argument block. -/
def visit_out (links : Nat → List Nat) (blocks : List Nat) (blk : Nat)
    (vis v ord : List Nat) : Prop :=
  v.Perm (ord ++ vis) ∧ v.Nodup ∧ (∀ x ∈ v, x ∈ blocks) ∧ blk ∈ v ∧
  (∀ x ∈ vis, x ∈ v) ∧
  (∀ x ∈ v, x ∈ vis ∨ ∀ c ∈ links x, c ∈ v) ∧
  (∀ x ∈ v, x ∈ vis ∨ reach links blk x)

/-- Invariant established by iterating `rec` over a list of start blocks
(`rec_links`), with reachability now from some start block. -/
def links_out (links : Nat → List Nat) (blocks : List Nat) (cs : List Nat)
    (vis v ord : List Nat) : Prop :=
  v.Perm (ord ++ vis) ∧ v.Nodup ∧ (∀ x ∈ v, x ∈ blocks) ∧ (∀ c ∈ cs, c ∈ v) ∧
  (∀ x ∈ vis, x ∈ v) ∧
  (∀ x ∈ v, x ∈ vis ∨ ∀ c ∈ links x, c ∈ v) ∧
  (∀ x ∈ v, x ∈ vis ∨ ∃ c ∈ cs, reach links c x)

theorem rec_links_some (links : Nat → List Nat) (blocks : List Nat) (f : Nat)
    (F : Nat → List Nat → Option (List Nat × List Nat))
    (hF : ∀ blk vis, blk ∈ blocks → (∀ x ∈ vis, x ∈ blocks) → vis.Nodup →
          blocks.length < f + vis.length →
          ∃ v ord, F blk vis = some (v, ord) ∧ visit_out links blocks blk vis v ord) :
    ∀ cs vis, (∀ c ∈ cs, c ∈ blocks) → (∀ x ∈ vis, x ∈ blocks) → vis.Nodup →
      blocks.length < f + vis.length →
      ∃ v ord, rec_links F cs vis = some (v, ord) ∧
        links_out links blocks cs vis v ord := by
  intro cs
  induction cs with
  | nil =>
    intro vis _ hvb hvn _
    refine ⟨vis, [], rfl, ?_⟩
    exact ⟨by simp, hvn, hvb, by simp, fun x hx => hx,
      fun x hx => Or.inl hx, fun x hx => Or.inl hx⟩
  | cons c cs ih =>
    intro vis hcs hvb hvn hlen
    obtain ⟨v1, o1, hFc, hp1, hn1, hb1, hc1, hsub1, hcl1, hr1⟩ :=
      hF c vis (hcs c (by simp)) hvb hvn hlen
    have hlen1 : vis.length ≤ v1.length := by
      have hlq := hp1.length_eq
      rw [List.length_append] at hlq
      omega
    obtain ⟨v2, o2, hrec, hp2, hn2, hb2, hcs2, hsub2, hcl2, hr2⟩ :=
      ih v1 (fun x hx => hcs x (by simp [hx])) hb1 hn1 (by omega)
    refine ⟨v2, o1 ++ o2, by simp only [rec_links, hFc, hrec], ?_, hn2, hb2, ?_, ?_, ?_, ?_⟩
    · have s1 : v2.Perm (o2 ++ (o1 ++ vis)) := hp2.trans (hp1.append_left o2)
      have s2 : ((o2 ++ o1) ++ vis).Perm ((o1 ++ o2) ++ vis) :=
        (List.perm_append_comm).append_right vis
      have s3 : v2.Perm ((o2 ++ o1) ++ vis) := by
        rw [List.append_assoc]
        exact s1
      exact s3.trans s2
    · intro x hx
      rcases List.mem_cons.mp hx with rfl | hx
      · exact hsub2 x hc1
      · exact hcs2 x hx
    · exact fun x hx => hsub2 x (hsub1 x hx)
    · intro x hx
      rcases hcl2 x hx with hxv1 | hclx
      · rcases hcl1 x hxv1 with hxvis | hclx
        · exact Or.inl hxvis
        · exact Or.inr fun cc hcc => hsub2 cc (hclx cc hcc)
      · exact Or.inr hclx
    · intro x hx
      rcases hr2 x hx with hxv1 | ⟨c2, hc2, hrr⟩
      · rcases hr1 x hxv1 with hxvis | hre
        · exact Or.inl hxvis
        · exact Or.inr ⟨c, by simp, hre⟩
      · exact Or.inr ⟨c2, by simp [hc2], hrr⟩

theorem rec_visit_some (links : Nat → List Nat) (blocks : List Nat)
    (hcl : ∀ b ∈ blocks, ∀ c ∈ links b, c ∈ blocks) :
    ∀ f blk vis, blk ∈ blocks → (∀ x ∈ vis, x ∈ blocks) → vis.Nodup →
      blocks.length < f + vis.length →
      ∃ v ord, rec_visit links f blk vis = some (v, ord) ∧
        visit_out links blocks blk vis v ord := by
  intro f
  induction f with
  | zero =>
    intro blk vis _ hvb hvn hlen
    exfalso
    have hsp : vis.Subperm blocks :=
      List.subperm_of_subset hvn (fun x hx => hvb x hx)
    have := hsp.length_le
    omega
  | succ f ih =>
    intro blk vis hb hvb hvn hlen
    by_cases hmem : blk ∈ vis
    · refine ⟨vis, [], ?_, ?_⟩
      · show rec_step links (rec_visit links f) blk vis = some (vis, [])
        unfold rec_step
        rw [if_pos hmem]
      · exact ⟨by simp, hvn, hvb, hmem, fun x hx => hx,
          fun x hx => Or.inl hx, fun x hx => Or.inl hx⟩
    · have hsubB : ∀ x ∈ blk :: vis, x ∈ blocks := by
        intro x hx
        rcases List.mem_cons.mp hx with rfl | hx
        · exact hb
        · exact hvb x hx
      have hndB : (blk :: vis).Nodup := List.nodup_cons.mpr ⟨hmem, hvn⟩
      obtain ⟨v1, o1, hrl, hp1, hn1, hb1, hcs1, hsub1, hcl1, hr1⟩ :=
        rec_links_some links blocks f (rec_visit links f) ih
          (links blk) (blk :: vis) (hcl blk hb) hsubB hndB
          (by simp only [List.length_cons]; omega)
      refine ⟨v1, o1 ++ [blk], ?_, ?_, hn1, hb1, ?_, ?_, ?_, ?_⟩
      · show rec_step links (rec_visit links f) blk vis = some (v1, o1 ++ [blk])
        unfold rec_step
        rw [if_neg hmem, hrl]
      · simpa [List.append_assoc] using hp1
      · exact hsub1 blk (by simp)
      · exact fun x hx => hsub1 x (by simp [hx])
      · intro x hx
        rcases hcl1 x hx with hxbv | hclx
        · rcases List.mem_cons.mp hxbv with rfl | hxvis
          · exact Or.inr hcs1
          · exact Or.inl hxvis
        · exact Or.inr hclx
      · intro x hx
        rcases hr1 x hx with hxbv | ⟨c2, hc2, hrr⟩
        · rcases List.mem_cons.mp hxbv with rfl | hxvis
          · exact Or.inr (reach.refl x)
          · exact Or.inl hxvis
        · exact Or.inr (reach.head hc2 hrr)

/-- A visited set all of whose members have all their links visited is
closed under reachability. -/
theorem reach_mem_closed (links : Nat → List Nat) (v : List Nat)
    (hc : ∀ x ∈ v, ∀ c ∈ links x, c ∈ v) :
    ∀ {a b : Nat}, reach links a b → a ∈ v → b ∈ v := by
  intro a b h
  induction h with
  | refl a => exact fun h => h
  | head hmem _ ih => exact fun ha => ih (hc _ ha _ hmem)

/-! ## Claims about `split_offset` -/

/-- Claim C1: for every expression `E`, `split_offset E` returns
`(base, +c)` when `E` structurally matches `base + constant` with constant
value `c`, returns `(base, -c)` when `E` matches `base - constant`, and
otherwise returns `(E, 0)` unchanged; it never fails (it is a total
function by construction). -/
theorem C1_split_offset_contract (b : expression) (c : Int) (e : expression) :
    split_offset (.bin .add b (.cst c)) = (b, c) ∧
    split_offset (.bin .sub b (.cst c)) = (b, -c) ∧
    (matches_shape e = false → split_offset e = (e, 0)) := by
  refine ⟨?_, ?_, ?_⟩
  · simp [split_offset, run_directives, split_offset_directives, fast_match, A, U,
      st_bind, is_constant, get_signed, List.lookup]
  · simp [split_offset, run_directives, split_offset_directives, fast_match, A, U,
      st_bind, is_constant, get_signed, List.lookup]
  · intro h
    cases e with
    | cst v => simp [split_offset, run_directives, split_offset_directives, fast_match]
    | sym i => simp [split_offset, run_directives, split_offset_directives, fast_match]
    | una op e1 => simp [split_offset, run_directives, split_offset_directives, fast_match]
    | bin op el er =>
      cases op with
      | add =>
        simp only [matches_shape, Bool.or_eq_false_iff] at h
        simp [split_offset, run_directives, split_offset_directives, fast_match, A, U,
          st_bind, op_commutative, h.1, h.2]
      | sub =>
        simp only [matches_shape] at h
        simp [split_offset, run_directives, split_offset_directives, fast_match, A, U,
          st_bind, op_commutative, h]
      | neg =>
        simp [split_offset, run_directives, split_offset_directives, fast_match]
      | other n =>
        simp [split_offset, run_directives, split_offset_directives, fast_match]

/-- Witness for C1 at concrete inputs: `sym 5 + 7`, `sym 5 - 7`, and the
non-matching expression `neg (sym 2)`. -/
theorem C1_split_offset_contract_witness :
    split_offset (.bin .add (.sym 5) (.cst 7)) = (.sym 5, 7) ∧
    split_offset (.bin .sub (.sym 5) (.cst 7)) = (.sym 5, -7) ∧
    matches_shape (.una .neg (.sym 2)) = false ∧
    split_offset (.una .neg (.sym 2)) = (.una .neg (.sym 2), 0) :=
  ⟨(C1_split_offset_contract (.sym 5) 7 (.una .neg (.sym 2))).1,
   (C1_split_offset_contract (.sym 5) 7 (.una .neg (.sym 2))).2.1,
   by decide,
   (C1_split_offset_contract (.sym 5) 7 (.una .neg (.sym 2))).2.2 (by decide)⟩

/-- Claim C3: the directive loop resolves an expression via the first
directive in list order that matches, short-circuiting without attempting
later directives; consequently `split_offset` is determined by the `A + U`
match whenever that first directive matches. -/
theorem C3_first_match_wins (pre : List (directive × Int)) (d : directive) (s : Int)
    (post : List (directive × Int)) (e : expression) (st : symbol_table)
    (hpre : ∀ p ∈ pre, fast_match p.1 e [] = none)
    (hd : fast_match d e [] = some st) :
    run_directives (pre ++ (d, s) :: post) e = some (st, s) ∧
    (fast_match (.dbin .add A U) e [] = some st →
      split_offset e = ((List.lookup 0 st).getD e, ((List.lookup 1 st).bind get_signed).getD 0)) := by
  constructor
  · induction pre with
    | nil => simp [run_directives, hd]
    | cons p pre ih =>
      have hp := hpre p (by simp)
      have ihh := ih (fun q hq => hpre q (by simp [hq]))
      simpa [run_directives, hp] using ihh
  · intro h1
    simp [split_offset, run_directives, split_offset_directives, h1]

/-- Witness for C3, with the directive list adversarially re-ordered so that
a non-matching directive precedes the matching one, on `sym 0 + 4`. -/
theorem C3_first_match_wins_witness :
    (∀ p ∈ [((directive.dbin .sub A U : directive), (-1 : Int))],
       fast_match p.1 (.bin .add (.sym 0) (.cst 4)) [] = none) ∧
    fast_match (.dbin .add A U) (.bin .add (.sym 0) (.cst 4)) [] =
      some [(1, .cst 4), (0, .sym 0)] ∧
    run_directives [(.dbin .sub A U, -1), (.dbin .add A U, 1)]
      (.bin .add (.sym 0) (.cst 4)) = some ([(1, .cst 4), (0, .sym 0)], 1) ∧
    split_offset (.bin .add (.sym 0) (.cst 4)) = (.sym 0, 4) :=
  ⟨by decide, by decide,
   (C3_first_match_wins [(.dbin .sub A U, -1)] (.dbin .add A U) 1 []
      (.bin .add (.sym 0) (.cst 4)) [(1, .cst 4), (0, .sym 0)]
      (by decide) (by decide)).1,
   ((C3_first_match_wins [(.dbin .sub A U, -1)] (.dbin .add A U) 1 []
      (.bin .add (.sym 0) (.cst 4)) [(1, .cst 4), (0, .sym 0)]
      (by decide) (by decide)).2 (by decide)).trans (by decide)⟩

/-- Claim C7: for every symbolic leaf `X`, `split_offset (X + 4)` and
`split_offset (4 + X)` both yield `(X, +4)` — the `A + U` directive matches
with the operands in either order — while `A - U` binds left-to-right only:
`split_offset (X - 4) = (X, -4)` but `4 - X` does not match and is returned
unchanged. -/
theorem C7_add_commutative_match (x : Nat) :
    split_offset (.bin .add (.sym x) (.cst 4)) = (.sym x, 4) ∧
    split_offset (.bin .add (.cst 4) (.sym x)) = (.sym x, 4) ∧
    split_offset (.bin .sub (.sym x) (.cst 4)) = (.sym x, -4) ∧
    split_offset (.bin .sub (.cst 4) (.sym x)) = (.bin .sub (.cst 4) (.sym x), 0) := by
  refine ⟨?_, ?_, ?_, ?_⟩ <;>
    simp [split_offset, run_directives, split_offset_directives, fast_match, A, U,
      st_bind, is_constant, get_signed, op_commutative, List.lookup]

/-! ## Claims about the execution engine -/

/-- Claim C2 (counterexample): on the chain routine A -> B -> C (with
A = 0, B = 1, C = 2), the serial depth-first traversal invokes the worker in
the order C, B, A — not A, B, C as claimed — and the serial breadth-first
traversal starting from the single exit C invokes the worker in the order
A, B, C — not C, B, A as claimed.  (The source's `rec` runs the worker only
after recursing into all links, i.e. in post-order.) -/
theorem C2_chain_order_counterexample :
    (serial_df_run chain_routine).map (fun p => p.2) = some [2, 1, 0] ∧
    (serial_df_run chain_routine).map (fun p => p.2) ≠ some [0, 1, 2] ∧
    (serial_bf_run chain_routine).map (fun p => p.2) = some [0, 1, 2] ∧
    (serial_bf_run chain_routine).map (fun p => p.2) ≠ some [2, 1, 0] := by
  decide

/-- Claim C2 (amended): for the routine whose blocks form the chain
A -> B -> C, serial depth-first order invokes the pass on C, B, A, in that
order, each block exactly once (post-order: a block runs after all blocks
reachable through its successors); serial breadth-first order, starting
from the single exit C, invokes the pass on A, B, C. -/
theorem C2_chain_order (passFn : Nat → Bool → Nat) :
    (serial_df_run chain_routine).map (fun p => p.2) = some [2, 1, 0] ∧
    (List.Nodup [2, 1, 0] ∧ List.Nodup [0, 1, 2]) ∧
    (serial_bf_run chain_routine).map (fun p => p.2) = some [0, 1, 2] ∧
    apply_pass chain_routine .serial_df passFn =
      some (passFn 2 true + (passFn 1 true + (passFn 0 true + 0))) ∧
    apply_pass chain_routine .serial_bf passFn =
      some (passFn 0 true + (passFn 1 true + (passFn 2 true + 0))) := by
  refine ⟨by decide, ⟨by decide, by decide⟩, by decide, ?_, ?_⟩ <;> rfl

/-- Claim C5: routing a pass whose declared execution order is `custom`
through the generic engine dispatcher `apply_pass` always hits the
`fassert` of the `custom` branch (modelled as `none`): it never proceeds as
a recoverable runtime path and never returns a count. -/
theorem C5_custom_order_fatal (R : routine) (passFn : Nat → Bool → Nat) :
    apply_pass R .custom passFn = none := rfl

/-- Claim C8: for every well-formed routine graph, including cyclic ones, a
single serial depth-first or breadth-first traversal terminates (the fuel
`blocks.length + 1` suffices, so the source recursion, which differs only
by not being fuel-limited, terminates) and its worker order lists each
reachable block exactly once: the order is duplicate-free — the visited-set
prevents re-entering a block — and contains exactly the blocks reachable
from the entry point along successor links (depth-first), respectively from
some exit along predecessor links (breadth-first). -/
theorem C8_serial_visits_reachable_once (R : routine) (h : routine_wf R) :
    (∃ v ord, serial_df_run R = some (v, ord) ∧ ord.Nodup ∧
      (∀ b, b ∈ ord ↔ reach R.next R.entry_point b)) ∧
    (∃ v ord, serial_bf_run R = some (v, ord) ∧ ord.Nodup ∧
      (∀ b, b ∈ ord ↔ ∃ s ∈ get_exits R, reach R.prev s b)) := by
  obtain ⟨hentry, hnext, hprev⟩ := h
  constructor
  · obtain ⟨v, ord, hrun, hp, hn, hb, hblk, hsub, hcl, hr⟩ :=
      rec_visit_some R.next R.blocks hnext (R.blocks.length + 1) R.entry_point []
        hentry (by simp) (by simp) (by simp only [List.length_nil]; omega)
    have hp2 : v.Perm ord := by simpa using hp
    refine ⟨v, ord, hrun, hp2.nodup_iff.mp hn, ?_⟩
    intro b
    have hmem : b ∈ ord ↔ b ∈ v := hp2.mem_iff.symm
    constructor
    · intro hbo
      rcases hr b (hmem.mp hbo) with hfalse | hre
      · exact absurd hfalse (by simp)
      · exact hre
    · intro hre
      have hclosed : ∀ x ∈ v, ∀ c ∈ R.next x, c ∈ v := by
        intro x hx c hc
        rcases hcl x hx with hfalse | hcli
        · exact absurd hfalse (by simp)
        · exact hcli c hc
      exact hmem.mpr (reach_mem_closed R.next v hclosed hre hblk)
  · obtain ⟨v, ord, hrun, hp, hn, hb, hcs, hsub, hcl, hr⟩ :=
      rec_links_some R.prev R.blocks (R.blocks.length + 1)
        (rec_visit R.prev (R.blocks.length + 1))
        (rec_visit_some R.prev R.blocks hprev (R.blocks.length + 1))
        (get_exits R) []
        (fun c hc => List.mem_of_mem_filter hc)
        (by simp) (by simp) (by simp only [List.length_nil]; omega)
    have hp2 : v.Perm ord := by simpa using hp
    refine ⟨v, ord, hrun, hp2.nodup_iff.mp hn, ?_⟩
    intro b
    have hmem : b ∈ ord ↔ b ∈ v := hp2.mem_iff.symm
    constructor
    · intro hbo
      rcases hr b (hmem.mp hbo) with hfalse | hre
      · exact absurd hfalse (by simp)
      · exact hre
    · rintro ⟨s, hs, hre⟩
      have hclosed : ∀ x ∈ v, ∀ c ∈ R.prev x, c ∈ v := by
        intro x hx c hc
        rcases hcl x hx with hfalse | hcli
        · exact absurd hfalse (by simp)
        · exact hcli c hc
      exact hmem.mpr (reach_mem_closed R.prev v hclosed hre (hcs s hs))

/-- Witness for C8 on the concrete chain routine. -/
theorem C8_serial_visits_reachable_once_witness :
    routine_wf chain_routine ∧
    ((∃ v ord, serial_df_run chain_routine = some (v, ord) ∧ ord.Nodup ∧
      (∀ b, b ∈ ord ↔ reach chain_routine.next chain_routine.entry_point b)) ∧
     (∃ v ord, serial_bf_run chain_routine = some (v, ord) ∧ ord.Nodup ∧
      (∀ b, b ∈ ord ↔ ∃ s ∈ get_exits chain_routine, reach chain_routine.prev s b))) :=
  ⟨⟨by decide, by decide, by decide⟩,
   C8_serial_visits_reachable_once chain_routine ⟨by decide, by decide, by decide⟩⟩

/-- Claim C9: applying the no-op pass to any routine returns an applied
count of 0 and leaves the routine graph unchanged — same blocks, same
edges, same entry point. -/
theorem C9_nop_pass_identity (R : routine) (blk : Nat) (xb : Bool) :
    nop_xpass R = (R, 0) ∧
    (nop_xpass R).1.blocks = R.blocks ∧
    (nop_xpass R).1.next = R.next ∧
    (nop_xpass R).1.prev = R.prev ∧
    (nop_xpass R).1.entry_point = R.entry_point ∧
    nop_pass_fn blk xb = (blk, 0) :=
  ⟨rfl, rfl, rfl, rfl, rfl, rfl⟩

/-! ## Claims about the pass combinators -/

/-- Claim C4 (counterexample): with cross-block exploration allowed
(`xblock = true`), the conditional combinator does NOT run the remaining
sub-passes even though the first sub-pass reported a count greater than 0:
on block 0 it returns the first sub-pass's result `(0, 1)`, not the
run-everything result `(1, 6)` the claim demands for that flag. -/
theorem C4_conditional_xblock_counterexample :
    (cond_probe_first 0 true).2 > 0 ∧
    conditional_pass_fn cond_probe_first cond_probe_rest 0 true = (0, 1) ∧
    conditional_pass_fn cond_probe_first cond_probe_rest 0 true ≠
      ((cond_probe_rest (cond_probe_first 0 true).1 true).1,
       (cond_probe_first 0 true).2 + (cond_probe_rest (cond_probe_first 0 true).1 true).2) := by
  decide

/-- Claim C4 (amended): for every block, when cross-block exploration is
disallowed (`xblock = false`) the conditional combinator runs its first
sub-pass and runs the remaining sub-passes if and only if the first
reported a count greater than 0, returning the sum of the counts; when
cross-block exploration is allowed it runs only the first sub-pass. -/
theorem C4_conditional_pass_contract (σ : Type) (T1 rest : σ → Bool → σ × Nat) (blk : σ) :
    ((T1 blk false).2 = 0 → conditional_pass_fn T1 rest blk false = T1 blk false) ∧
    ((T1 blk false).2 ≠ 0 →
      conditional_pass_fn T1 rest blk false =
        ((rest (T1 blk false).1 false).1,
         (T1 blk false).2 + (rest (T1 blk false).1 false).2)) ∧
    conditional_pass_fn T1 rest blk true = T1 blk true := by
  refine ⟨?_, ?_, ?_⟩
  · intro h
    simp [conditional_pass_fn, h]
  · intro h
    simp [conditional_pass_fn, h]
  · simp [conditional_pass_fn]

/-- Witness for the amended C4 at concrete sub-passes and block 0, covering
the zero, non-zero and cross-block cases. -/
theorem C4_conditional_pass_contract_witness :
    conditional_pass_fn nop_pass_fn cond_w_rest 0 false = (0, 0) ∧
    conditional_pass_fn cond_w_first cond_w_rest 0 false = (10, 6) ∧
    conditional_pass_fn cond_w_first cond_w_rest 0 true = (1, 1) :=
  ⟨((C4_conditional_pass_contract Nat nop_pass_fn cond_w_rest 0).1 (by decide)).trans
     (by decide),
   ((C4_conditional_pass_contract Nat cond_w_first cond_w_rest 0).2.1 (by decide)).trans
     (by decide),
   ((C4_conditional_pass_contract Nat cond_w_first cond_w_rest 0).2.2).trans (by decide)⟩

/-- Claim C10: for every block, the conditional combinator called with
cross-block exploration allowed (`xblock = true`) runs only the first
sub-pass and returns exactly its result; the remaining sub-passes are never
consulted — replacing them changes nothing. -/
theorem C10_conditional_xblock_first_only (σ : Type) (T1 r1 r2 : σ → Bool → σ × Nat)
    (blk : σ) :
    conditional_pass_fn T1 r1 blk true = T1 blk true ∧
    conditional_pass_fn T1 r1 blk true = conditional_pass_fn T1 r2 blk true := by
  constructor <;> simp [conditional_pass_fn]

/-- Claim C6 (counterexample): the exhaust combinator does not terminate for
every block and sub-pass sequence — on the sub-pass that always reports 1,
no amount of fuel makes the loop finish on block 0. -/
theorem C6_exhaust_counterexample : ¬ exhaust_halts always_one_pass 0 := by
  rintro ⟨f, hf⟩
  have hall : ∀ (f : Nat) (b : Nat), exhaust_fuel always_one_pass f b = none := by
    intro f
    induction f with
    | zero => intro b; rfl
    | succ f ih => intro b; simp [exhaust_fuel, always_one_pass, ih]
  rw [hall f 0] at hf
  exact absurd hf (by simp)

/-- Claim C6 (amended): whenever some round of the exhaust combinator's
sub-pass sequence reports 0 (with `k` the first such round), the loop
terminates — fuel `k + 1` suffices — and the returned total equals the sum
of the counts reported by the full rounds before it, the final executed
round being the one that reports 0. -/
theorem C6_exhaust_fixpoint (σ : Type) (P : σ → σ × Nat) (s : σ) (k : Nat)
    (h0 : round_count P s k = 0) (hmin : ∀ j, j < k → round_count P s j ≠ 0) :
    exhaust_fuel P (k + 1) s =
      some (pass_iter P (k + 1) s, ∑ i ∈ Finset.range k, round_count P s i) := by
  induction k generalizing s with
  | zero =>
    have h0' : (P s).2 = 0 := h0
    simp [exhaust_fuel, h0', Finset.range_zero, Finset.sum_empty, pass_iter]
  | succ k ih =>
    have hne : (P s).2 ≠ 0 := hmin 0 (Nat.succ_pos k)
    have hrec := ih (P s).1 h0 (fun j hj => hmin (j + 1) (by omega))
    have hstep : exhaust_fuel P (k + 1 + 1) s =
        match exhaust_fuel P (k + 1) (P s).1 with
        | none => none
        | some (s2, c) => some (s2, (P s).2 + c) := by
      simp only [exhaust_fuel]
      rw [if_neg hne]
    rw [hstep, hrec]
    have hcount : (P s).2 + ∑ i ∈ Finset.range k, round_count P (P s).1 i =
        ∑ i ∈ Finset.range (k + 1), round_count P s i := by
      rw [Finset.sum_range_succ']
      have h1 : ∑ i ∈ Finset.range k, round_count P (P s).1 i =
          ∑ i ∈ Finset.range k, round_count P s (i + 1) := rfl
      have h2 : round_count P s 0 = (P s).2 := rfl
      rw [h1, h2, Nat.add_comm]
    show some (pass_iter P (k + 1) (P s).1,
        (P s).2 + ∑ i ∈ Finset.range k, round_count P (P s).1 i) =
      some (pass_iter P (k + 1 + 1) s, ∑ i ∈ Finset.range (k + 1), round_count P s i)
    rw [hcount]
    rfl

/-- Witness for the amended C6: on `exhaust_probe` from state 0, rounds 0
and 1 report 1, round 2 reports 0, and the loop stops with total 2 at
state 2. -/
theorem C6_exhaust_fixpoint_witness :
    round_count exhaust_probe 0 2 = 0 ∧
    (∀ j, j < 2 → round_count exhaust_probe 0 j ≠ 0) ∧
    exhaust_fuel exhaust_probe 3 0 =
      some (pass_iter exhaust_probe 3 0, ∑ i ∈ Finset.range 2, round_count exhaust_probe 0 i) ∧
    exhaust_fuel exhaust_probe 3 0 = some (2, 2) :=
  ⟨by decide, by decide,
   C6_exhaust_fixpoint Nat exhaust_probe 0 2 (by decide) (by decide),
   by decide⟩

end vtil
